import Mathlib

/-!
Shallow embedding of the distributed iterative-refinement training
orchestrator in `src/train.py` (function `train` and the `__main__`
configuration block), together with theorems settling the specification
claims about it.

Conventions: Python floats are modelled as `ℚ`; the stream of values
produced by `rng.random()` is modelled as a `List ℚ` of draws (each in
`[0,1)` in the real program); the while-loop at src/train.py:137-153 is
modelled with the list of draws as fuel, returning `none` when the loop
would consume more draws than supplied.
-/

namespace DroidTrain

/-! ## Definitions

### Frame graph construction (src/train.py:126-129 and 192-194) -/

/-- Embedding of the window-graph branch of the training graph builder,
src/train.py:127-129: `graph[i] = [j for j in range(N) if i!=j and abs(i-j) <= 2]`. -/
def windowNeighbors (N i : ℕ) : List ℕ :=
  (List.range N).filter (fun j => decide (i ≠ j ∧ ((i : ℤ) - (j : ℤ)).natAbs ≤ 2))

/-- Embedding of the validation graph, src/train.py:192-194:
`val_graph[i] = [j for j in range(N) if i!=j and abs(i-j) <= 2]`. -/
def valGraphNeighbors (N i : ℕ) : List ℕ :=
  (List.range N).filter (fun j => decide (i ≠ j ∧ ((i : ℤ) - (j : ℤ)).natAbs ≤ 2))

/-! ### Restart loop (src/train.py:136-139)

The loop is `r = 0; while r < args.restart_prob: r = rng.random(); <round body>`.
`restartLoop p r draws` returns `some k` when the loop, entered with current
comparator value `r`, performs exactly `k` further iterations before exiting,
consuming one draw per iteration; `none` when the supplied draw list is
exhausted while the loop condition still holds. -/

def restartLoop (p r : ℚ) : List ℚ → Option ℕ
  | [] => if r < p then none else some 0
  | d :: ds => if r < p then (restartLoop p d ds).map (· + 1) else some 0

/-- Number of refinement rounds in one outer step: the loop is entered with
`r = 0` (src/train.py:137). -/
def roundCount (p : ℚ) (draws : List ℚ) : Option ℕ :=
  restartLoop p 0 draws

/-! ### Event trace of one outer training step (src/train.py:113-158) -/

/-- Observable events of one outer training step, in program order. -/
inductive TrainEvent where
  | zeroGrad
  | modelForward
  | backward
  | clipGradNorm
  | optimizerStep
  | schedulerStep
  deriving DecidableEq, Repr

/-- Events of the while-loop at src/train.py:138-153: each iteration invokes
the model (line 142) and triggers gradient computation via loss.backward
(line 150); no gradient clearing happens inside the loop. -/
def restartLoopEvents (p r : ℚ) : List ℚ → Option (List TrainEvent)
  | [] => if r < p then none else some []
  | d :: ds =>
    if r < p then
      (restartLoopEvents p d ds).map
        (fun t => TrainEvent.modelForward :: TrainEvent.backward :: t)
    else some []

/-- Events of one outer training step, src/train.py:114-158:
optimizer.zero_grad (line 114), then the restart loop (lines 137-153), then
clip_grad_norm (line 156), optimizer.step (line 157), scheduler.step
(line 158), each of the last three exactly once and unconditionally. -/
def outerStepEvents (p : ℚ) (draws : List ℚ) : Option (List TrainEvent) :=
  (restartLoopEvents p 0 draws).map (fun t =>
    TrainEvent.zeroGrad :: (t ++
      [TrainEvent.clipGradNorm, TrainEvent.optimizerStep, TrainEvent.schedulerStep]))

/-! ### Restart seeding (src/train.py:49-50) -/

/-- Embedding of src/train.py:50: every process constructs the restart random
generator as `np.random.default_rng(12345)`, a constant seed that does not
depend on the process rank `gpu`. -/
def restartRngSeed (gpu : ℕ) : ℕ := 12345

/-! ### Finite uniform draw space for the distribution of the round count -/

/-- Value of draw index i at granularity m: the rational i / m, giving the
uniform grid of m equally likely draw values in `[0,1)`. -/
def drawVal (m : ℕ) (i : Fin m) : ℚ := (i.1 : ℚ) / m

/-- Draw streams of n draws at granularity m that make the training loop of
src/train.py:137-139 execute exactly k rounds under restart probability a/m. -/
def geomSet (n m a k : ℕ) : Finset (Fin n → Fin m) :=
  Finset.univ.filter (fun f =>
    roundCount ((a : ℚ) / m) (List.ofFn (fun i => drawVal m (f i))) = some k)

/-- Admissible draw indices for coordinate i of a stream that produces exactly
k rounds: strictly below a before the final round, at least a at the final
round, arbitrary afterwards. -/
def coordSet (m a k i : ℕ) : Finset (Fin m) :=
  if i < k - 1 then Finset.univ.filter (fun x => x.1 < a)
  else if i = k - 1 then Finset.univ.filter (fun x => a ≤ x.1)
  else Finset.univ

/-- Draw indices of Fin m with value below a, as a Fin a. -/
def finValLtEquiv (m a : ℕ) (h : a ≤ m) : {x : Fin m // x.1 < a} ≃ Fin a where
  toFun x := ⟨x.1.1, x.2⟩
  invFun y := ⟨⟨y.1, lt_of_lt_of_le y.2 h⟩, y.2⟩
  left_inv x := rfl
  right_inv y := rfl

/-- Draw indices of Fin m with value at least a, as a Fin (m - a). -/
def finValLeEquiv (m a : ℕ) : {x : Fin m // a ≤ x.1} ≃ Fin (m - a) where
  toFun x := ⟨x.1.1 - a, by have h1 := x.1.2; have h2 := x.2; omega⟩
  invFun y := ⟨⟨y.1 + a, by have h1 := y.2; omega⟩, Nat.le_add_left a y.1⟩
  left_inv x := Subtype.ext (Fin.ext (by
    show x.1.1 - a + a = x.1.1
    have h2 := x.2
    omega))
  right_inv y := Fin.ext (by
    show y.1 + a - a = y.1
    omega)

/-! ### Per-step initialization (src/train.py:131-134 and 141) -/

/-- Embedding of src/train.py:132-133: `Gs.data[:,0] = Ps.data[:,0].clone()`
and `Gs.data[:,1:] = Ps.data[:,[1]].clone()`; poses are abstract values
indexed by frame. -/
def initPoses {α : Type} (Ps : ℕ → α) : ℕ → α :=
  fun i => if i = 0 then Ps 0 else Ps 1

/-- Embedding of the Python slice `3::8` applied to a spatial axis of length
H at src/train.py:134: positions 3, 11, 19, ... below H. -/
def sliceIdx (H : ℕ) : List ℕ :=
  (List.range H).filter (fun x => decide (3 ≤ x ∧ (x - 3) % 8 = 0))

/-- Embedding of src/train.py:134,
`disp0 = torch.ones_like(disps[:,:,3::8,3::8])`: the initial inverse-depth
estimate holds the value one at every sampled position. -/
def disp0 (row col : ℕ) : ℚ := 1

/-- Embedding of src/train.py:141: `intrinsics0 = intrinsics / 8.0`, applied
to each intrinsics component. -/
def intrinsics0 (K : ℚ) : ℚ := K / 8

/-! ### Round outputs and per-step emission (src/train.py:145-168, 239-252) -/

/-- Scalar outputs computed by one refinement round of the loop body,
src/train.py:145-149 and the metric dictionaries of src/train.py:161-168. -/
structure RoundOut where
  geo_loss : ℚ
  res_loss : ℚ
  flo_loss : ℚ
  rot_error : ℚ
  tr_error : ℚ
  f_error : ℚ
  deriving DecidableEq, Repr

/-- Record logged for one outer step at src/train.py:239-252 (the learning
rate entry is owned by the optimizer and omitted here). -/
structure StepLog where
  geo_loss : ℚ
  res_loss : ℚ
  flo_loss : ℚ
  loss : ℚ
  rot_error : ℚ
  tr_error : ℚ
  f_error : ℚ
  deriving DecidableEq, Repr

/-- Embedding of the loop at src/train.py:138-153, tracking the loop-local
Python variables that hold the most recently computed round outputs; the
round computation itself (the model call at line 142 and the three loss calls
at lines 145-147) is abstracted by f, mapping a round index to the outputs of
that round. Each iteration overwrites the held outputs. -/
def runRounds (f : ℕ → RoundOut) (p : ℚ) :
    ℚ → ℕ → Option RoundOut → List ℚ → Option (Option RoundOut)
  | r, _, cur, [] => if r < p then none else some cur
  | r, idx, cur, d :: ds =>
    if r < p then runRounds f p d (idx + 1) (some (f idx)) ds else some cur

/-- Embedding of src/train.py:149 and 239-252: the scalars emitted for one
outer step as a function of the round outputs held when the loop exits. -/
def emittedLog (w1 w2 w3 : ℚ) (o : RoundOut) : StepLog :=
  { geo_loss := o.geo_loss
    res_loss := o.res_loss
    flo_loss := o.flo_loss
    loss := w1 * o.geo_loss + w2 * o.res_loss + w3 * o.flo_loss
    rot_error := o.rot_error
    tr_error := o.tr_error
    f_error := o.f_error }

/-! ### Validation metric reduction (src/train.py:174-233) -/

/-- Local accumulation of one validation metric on one process,
src/train.py:174-203: the per-batch metric values are summed into a Python
float; the break at src/train.py:179-180 fires before batch index 500 is
processed, so at most the first 500 batches contribute. -/
def localValSum (errs : List ℚ) : ℚ := (errs.take 500).sum

/-- Final value of the loop variable v_batch after the validation loop,
src/train.py:178-180: when the loader yields a 501st batch, the break leaves
v_batch = 500; otherwise the loader is exhausted and v_batch stays at the
index of the last batch, one less than the number of batches processed. -/
def finalVBatch (errs : List ℚ) : ℕ :=
  if 501 ≤ errs.length then 500 else errs.length - 1

/-- Embedding of `dist.all_reduce(..., ReduceOp.SUM)` over the per-process
tensor copies of the local sums, src/train.py:205-217: every process obtains
the sum of all local sums in its tensor. -/
def allReduceSum (sums : List ℚ) : ℚ := sums.sum

/-- Embedding of src/train.py:219-233: the value logged for one validation
metric is the logging process's own local Python float sum divided by
(v_batch * world_size); the all-reduced tensors are never read back into the
logged value. -/
def reportedValMetric (world_size : ℕ) (errs : List ℚ) : ℚ :=
  localValSum errs / (finalVBatch errs * world_size)

/-- Statement of the metric the claim specifies: the sum over all processes of
the per-process local sums, divided by (local batch count times world size). -/
def claimedValMetric (world_size b : ℕ) (allErrs : List (List ℚ)) : ℚ :=
  (allErrs.map localValSum).sum / (b * world_size)

/-! ### Configuration surface (src/train.py:274-316) -/

/-- Configuration values parsed by the argparse block,
src/train.py:274-302 (restricted to the fields the claims use). -/
structure ParsedArgs where
  restart_prob : ℚ
  world_size : ℕ
  iters : ℕ
  steps : ℕ
  deriving DecidableEq, Repr

/-- Embedding of the remainder of the __main__ block, src/train.py:302-316:
after parse_args returns (argparse applies type=float to --restart_prob and
performs no range check), no further check of any argument happens before
mp.spawn launches training; every parsed configuration is accepted as is. -/
def validateConfig (a : ParsedArgs) : Option ParsedArgs := some a

/-- Default of --restart_prob, src/train.py:300: 0.2. -/
def defaultRestartProb : ℚ := 1 / 5

/-! ### Graphs consumed during one validation batch (src/train.py:192-200) -/

/-- Graph arguments of the three graph-consuming calls made for one
validation batch, src/train.py:196-200. -/
structure ValBatchGraphArgs (G : Type) where
  modelGraph : G
  geoLossGraph : G
  floLossGraph : G
  deriving Repr

/-- Embedding of src/train.py:196-200: the model call receives val_graph
(line 197), the geodesic loss receives the variable graph — still holding the
frame graph of the preceding training batch (line 198) — and the flow loss
receives val_graph (line 200). -/
def valBatchGraphArgs (G : Type) (graph val_graph : G) : ValBatchGraphArgs G :=
  ⟨val_graph, graph, val_graph⟩

/-- Full window graph over N frames as an association list, the OrderedDict
built at src/train.py:192-194. -/
def valGraph (N : ℕ) : List (ℕ × List ℕ) :=
  (List.range N).map (fun i => (i, valGraphNeighbors N i))

/-! ### Data feed partitioning (src/train.py:84-90, 112-113) -/

/-- Fields of a torch DistributedSampler relevant to ordering: the shuffle
flag, the base seed (torch default 0), and the epoch counter, which changes
only through a set_epoch call. -/
structure SamplerState where
  shuffle : Bool
  seed : ℕ
  epoch : ℕ
  deriving DecidableEq, Repr

/-- Modelled from the external collaborator's documented semantics (torch
DistributedSampler, the partitioning policy of the spec's Partitioned Data
Feed): with shuffle on, one iteration visits the permutation drawn from a
generator seeded with seed + epoch; with shuffle off it visits range(n). The
permutation primitive randperm is kept as a parameter. -/
def samplerIndices (randperm : ℕ → List ℕ) (n : ℕ) (s : SamplerState) :
    List ℕ :=
  if s.shuffle then randperm (s.seed + s.epoch) else List.range n

/-- Per-process subsampling indices[rank::world] of the sampler order (the
rank-strided slice torch DistributedSampler takes). -/
def rankSlice (world rank : ℕ) (idx : List ℕ) : List ℕ :=
  (((idx.drop rank).enum).filter (fun t => decide (t.1 % world = 0))).map
    (fun t => t.2)

/-- State of the training sampler during epoch e of the loop at
src/train.py:112-113: it is built with shuffle=True at src/train.py:84-85 and
set_epoch is never called anywhere in train, so its epoch field keeps the
initial value 0 in every epoch. -/
def trainSamplerAtEpoch (e : ℕ) : SamplerState := ⟨true, 0, 0⟩

/-- State of the validation sampler, built with shuffle=False at
src/train.py:86-87; set_epoch is never called on it either. -/
def valSamplerAtEpoch (e : ℕ) : SamplerState := ⟨false, 0, 0⟩

/-- Order in which epoch e of the training loop visits sample indices on one
process. -/
def trainEpochOrder (randperm : ℕ → List ℕ) (n world rank e : ℕ) : List ℕ :=
  rankSlice world rank (samplerIndices randperm n (trainSamplerAtEpoch e))

/-! ## Helper lemmas about the restart loop -/

theorem restartLoop_exit {p r : ℚ} (h : ¬ r < p) (ds : List ℚ) :
    restartLoop p r ds = some 0 := by
  cases ds with
  | nil => simp [restartLoop, h]
  | cons d ds => simp [restartLoop, h]

/-- When the loop is entered (current comparator below the threshold) and some
draw in the stream is at least the threshold, the loop terminates after
`1 + (number of leading draws strictly below the threshold)` iterations. -/
theorem restartLoop_count {p : ℚ} :
    ∀ (ds : List ℚ) (r : ℚ), r < p → (∃ d ∈ ds, p ≤ d) →
      restartLoop p r ds =
        some (1 + (ds.takeWhile (fun d => decide (d < p))).length) := by
  intro ds
  induction ds with
  | nil =>
    intro r _ hex
    simp at hex
  | cons d ds ih =>
    intro r hr hex
    by_cases hd : d < p
    · have hex' : ∃ x ∈ ds, p ≤ x := by
        rcases hex with ⟨x, hx, hpx⟩
        rcases List.mem_cons.mp hx with h1 | h2
        · exact absurd (h1 ▸ hpx) (not_le.mpr hd)
        · exact ⟨x, h2, hpx⟩
      have := ih d hd hex'
      simp [restartLoop, hr, this, List.takeWhile, hd]
      omega
    · simp [restartLoop, hr, restartLoop_exit hd, List.takeWhile, hd]

/-- A loop that is actually entered performs at least one iteration. -/
theorem restartLoop_ne_zero {p r : ℚ} (h : r < p) (l : List ℚ) :
    restartLoop p r l ≠ some 0 := by
  cases l with
  | nil => simp [restartLoop, h]
  | cons d ds =>
    simp only [restartLoop, if_pos h]
    cases restartLoop p d ds <;> simp

/-- Index-wise characterization of a terminating entered loop: it returns
c + 1 iterations exactly when the first c draws are below the threshold and
draw c is at least the threshold. -/
theorem restartLoop_succ_iff (p : ℚ) :
    ∀ (l : List ℚ) (r : ℚ) (c : ℕ), r < p →
      (restartLoop p r l = some (c + 1) ↔
        ∃ hc : c < l.length,
          (∀ j, ∀ hj : j < l.length, j < c → l.get ⟨j, hj⟩ < p) ∧
          p ≤ l.get ⟨c, hc⟩) := by
  intro l
  induction l with
  | nil =>
    intro r c hr
    simp [restartLoop, hr]
  | cons d ds ih =>
    intro r c hr
    simp only [restartLoop, if_pos hr]
    constructor
    · intro h
      cases hres : restartLoop p d ds with
      | none => rw [hres] at h; simp at h
      | some m =>
        rw [hres] at h
        simp only [Option.map_some'] at h
        injection h with h
        have hmc : m = c := by omega
        subst hmc
        by_cases hd : d < p
        · cases m with
          | zero => exact absurd hres (restartLoop_ne_zero hd ds)
          | succ c' =>
            obtain ⟨hc', hall, hlast⟩ := (ih d c' hd).mp hres
            refine ⟨by simpa using Nat.succ_lt_succ hc', ?_, ?_⟩
            · intro j hj hjc
              cases j with
              | zero => simpa using hd
              | succ j' =>
                have hj' : j' < ds.length := by simpa using Nat.lt_of_succ_lt_succ hj
                have := hall j' hj' (by omega)
                simpa using this
            · simpa using hlast
        · rw [restartLoop_exit hd ds] at hres
          injection hres with hres
          subst hres
          refine ⟨by simp, ?_, ?_⟩
          · intro j hj hj0
            exact absurd hj0 (by omega)
          · simpa using not_lt.mp hd
    · rintro ⟨hc, hall, hlast⟩
      cases c with
      | zero =>
        have hd : ¬ d < p := not_lt.mpr (by simpa using hlast)
        rw [restartLoop_exit hd ds]
        rfl
      | succ c' =>
        have hd : d < p := by simpa using hall 0 (by simp) (by omega)
        have hres : restartLoop p d ds = some (c' + 1) := by
          refine (ih d c' hd).mpr
            ⟨by simpa using Nat.lt_of_succ_lt_succ hc, ?_, ?_⟩
          · intro j hj hjc
            have hj1 : j + 1 < (d :: ds).length := by simpa using Nat.succ_lt_succ hj
            have := hall (j + 1) hj1 (by omega)
            simpa using this
          · simpa using hlast
        rw [hres]
        rfl

/-- Round count over a stream from the finite uniform grid, characterized by
per-coordinate conditions on the draw indices. -/
theorem roundCount_ofFn_iff (n m a j : ℕ) (hm : 0 < m) (ha : 0 < a)
    (f : Fin n → Fin m) :
    roundCount ((a : ℚ) / m) (List.ofFn (fun i => drawVal m (f i))) =
        some (j + 1) ↔
      (j < n ∧ (∀ i : Fin n, i.1 < j → (f i).1 < a) ∧
        ∀ i : Fin n, i.1 = j → a ≤ (f i).1) := by
  have hm' : (0 : ℚ) < m := by exact_mod_cast hm
  have hp : (0 : ℚ) < (a : ℚ) / m := by positivity
  have hlt : ∀ x : Fin m, (drawVal m x < (a : ℚ) / m ↔ x.1 < a) := by
    intro x
    rw [drawVal, div_lt_div_iff_of_pos_right hm']
    exact Nat.cast_lt
  have hle : ∀ x : Fin m, ((a : ℚ) / m ≤ drawVal m x ↔ a ≤ x.1) := by
    intro x
    rw [drawVal, div_le_div_iff_of_pos_right hm']
    exact Nat.cast_le
  have hlen : (List.ofFn (fun i => drawVal m (f i))).length = n :=
    List.length_ofFn _
  have hget : ∀ (jj : ℕ) (hj : jj < (List.ofFn (fun i => drawVal m (f i))).length),
      (List.ofFn (fun i => drawVal m (f i))).get ⟨jj, hj⟩ =
        drawVal m (f ⟨jj, hlen ▸ hj⟩) := by
    intro jj hj
    rw [List.get_ofFn]
    rfl
  rw [roundCount, restartLoop_succ_iff ((a : ℚ) / m) _ 0 j hp]
  constructor
  · rintro ⟨hc, hall, hlast⟩
    have hjn : j < n := hlen ▸ hc
    refine ⟨hjn, ?_, ?_⟩
    · intro i hij
      have hb : i.1 < (List.ofFn (fun i => drawVal m (f i))).length := by
        rw [hlen]; exact i.2
      have hv := hall i.1 hb hij
      rw [hget i.1 hb] at hv
      exact (hlt _).mp hv
    · intro i hij
      have hv := hlast
      rw [hget j hc] at hv
      have h2 := (hle _).mp hv
      have hi : i = ⟨j, hjn⟩ := Fin.ext hij
      rw [hi]
      exact h2
  · rintro ⟨hjn, hall, hlast⟩
    have hc : j < (List.ofFn (fun i => drawVal m (f i))).length := by
      rw [hlen]; exact hjn
    refine ⟨hc, ?_, ?_⟩
    · intro jj hj hjjj
      rw [hget jj hj]
      refine (hlt _).mpr (hall ⟨jj, ?_⟩ hjjj)
      rw [hlen] at hj
      exact hj
    · rw [hget j hc]
      exact (hle _).mpr (hlast ⟨j, hjn⟩ rfl)

theorem card_filter_val_lt (m a : ℕ) (h : a ≤ m) :
    (Finset.univ.filter (fun x : Fin m => x.1 < a)).card = a := by
  rw [← Fintype.card_subtype]
  rw [Fintype.card_congr (finValLtEquiv m a h)]
  exact Fintype.card_fin a

theorem card_filter_val_le (m a : ℕ) :
    (Finset.univ.filter (fun x : Fin m => a ≤ x.1)).card = m - a := by
  rw [← Fintype.card_subtype]
  rw [Fintype.card_congr (finValLeEquiv m a)]
  exact Fintype.card_fin (m - a)

theorem coordSet_card (m a k i : ℕ) (h : a ≤ m) :
    (coordSet m a k i).card =
      (if i < k - 1 then a else if i = k - 1 then m - a else m) := by
  rw [coordSet]
  split_ifs with h1 h2
  · exact card_filter_val_lt m a h
  · exact card_filter_val_le m a
  · rw [Finset.card_univ]
    exact Fintype.card_fin m

theorem prod_range_geom (n j a b c : ℕ) (hjn : j < n) :
    (∏ i ∈ Finset.range n,
        (if i < j then a else if i = j then b else c))
      = a ^ j * b * c ^ (n - (j + 1)) := by
  set g : ℕ → ℕ := fun i => if i < j then a else if i = j then b else c
    with hg
  have h1 : (∏ i ∈ Finset.Ico 0 j, g i) = a ^ j := by
    have hcongr : ∀ i ∈ Finset.Ico 0 j, g i = a := by
      intro i hi
      rw [Finset.mem_Ico] at hi
      simp [hg, hi.2]
    rw [Finset.prod_congr rfl hcongr, Finset.prod_const, Nat.card_Ico,
      Nat.sub_zero]
  have h2 : (∏ i ∈ Finset.Ico j (j + 1), g i) = b := by
    rw [Nat.Ico_succ_singleton, Finset.prod_singleton]
    simp [hg]
  have h3 : (∏ i ∈ Finset.Ico (j + 1) n, g i) = c ^ (n - (j + 1)) := by
    have hcongr : ∀ i ∈ Finset.Ico (j + 1) n, g i = c := by
      intro i hi
      rw [Finset.mem_Ico] at hi
      have hia : ¬ i < j := by omega
      have hib : ¬ i = j := by omega
      simp [hg, hia, hib]
    rw [Finset.prod_congr rfl hcongr, Finset.prod_const, Nat.card_Ico]
  rw [Finset.range_eq_Ico,
    ← Finset.prod_Ico_consecutive g (Nat.zero_le j) (by omega : j ≤ n),
    ← Finset.prod_Ico_consecutive g (by omega : j ≤ j + 1)
      (by omega : j + 1 ≤ n),
    h1, h2, h3, mul_assoc]

theorem geomSet_eq_piFinset (n m a k : ℕ) (hm : 0 < m) (ha : 0 < a)
    (hk : 1 ≤ k) (hkn : k ≤ n) :
    geomSet n m a k =
      Fintype.piFinset (fun i : Fin n => coordSet m a k i.1) := by
  obtain ⟨j, rfl⟩ : ∃ j, k = j + 1 := ⟨k - 1, by omega⟩
  ext f
  rw [geomSet, Finset.mem_filter, Fintype.mem_piFinset,
    roundCount_ofFn_iff n m a j hm ha f]
  have hjk : ∀ i : ℕ, i < j + 1 - 1 ↔ i < j := by intro i; omega
  have hjk2 : ∀ i : ℕ, i = j + 1 - 1 ↔ i = j := by intro i; omega
  constructor
  · rintro ⟨-, -, hall, hlast⟩ i
    rw [coordSet]
    split_ifs with h1 h2
    · simp only [Finset.mem_filter, Finset.mem_univ, true_and]
      exact hall i ((hjk i.1).mp h1)
    · simp only [Finset.mem_filter, Finset.mem_univ, true_and]
      exact hlast i ((hjk2 i.1).mp h2)
    · exact Finset.mem_univ _
  · intro h
    refine ⟨Finset.mem_univ _, by omega, ?_, ?_⟩
    · intro i hij
      have hmem := h i
      rw [coordSet, if_pos ((hjk i.1).mpr hij)] at hmem
      rw [Finset.mem_filter] at hmem
      exact hmem.2
    · intro i hij
      have hmem := h i
      have hn1 : ¬ i.1 < j + 1 - 1 := by omega
      rw [coordSet, if_neg hn1, if_pos ((hjk2 i.1).mpr hij)] at hmem
      rw [Finset.mem_filter] at hmem
      exact hmem.2

/-- Exact count of n-draw streams at granularity m producing exactly k rounds
under restart probability a/m. -/
theorem geomSet_card (n m a k : ℕ) (ha : 0 < a) (ham : a < m)
    (hk : 1 ≤ k) (hkn : k ≤ n) :
    (geomSet n m a k).card = a ^ (k - 1) * (m - a) * m ^ (n - k) := by
  have hm : 0 < m := ha.trans ham
  rw [geomSet_eq_piFinset n m a k hm ha hk hkn, Fintype.card_piFinset]
  have hcards : ∀ i : Fin n, (coordSet m a k i.1).card =
      (if i.1 < k - 1 then a else if i.1 = k - 1 then m - a else m) :=
    fun i => coordSet_card m a k i.1 (le_of_lt ham)
  rw [Finset.prod_congr rfl (fun i _ => hcards i)]
  rw [Fin.prod_univ_eq_prod_range
    (fun i => if i < k - 1 then a else if i = k - 1 then m - a else m) n]
  rw [prod_range_geom n (k - 1) a (m - a) m (by omega)]
  have hexp : n - (k - 1 + 1) = n - k := by omega
  rw [hexp]

/-- Probability form of geomSet_card: under the uniform distribution on the
m^n draw streams, the probability of exactly k rounds is
p^(k-1) * (1 - p) with p = a/m — the geometric law with success probability
1 - p. -/
theorem geomSet_prob (n m a k : ℕ) (ha : 0 < a) (ham : a < m)
    (hk : 1 ≤ k) (hkn : k ≤ n) :
    ((geomSet n m a k).card : ℚ) / (m : ℚ) ^ n =
      ((a : ℚ) / m) ^ (k - 1) * (1 - (a : ℚ) / m) := by
  have hm : 0 < m := ha.trans ham
  have hm' : (0 : ℚ) < m := by exact_mod_cast hm
  have hne : (m : ℚ) ≠ 0 := ne_of_gt hm'
  rw [geomSet_card n m a k ha ham hk hkn]
  have hcast : ((a ^ (k - 1) * (m - a) * m ^ (n - k) : ℕ) : ℚ) =
      (a : ℚ) ^ (k - 1) * ((m : ℚ) - a) * (m : ℚ) ^ (n - k) := by
    push_cast [Nat.cast_sub (le_of_lt ham)]
    ring
  rw [hcast]
  have hsub : (1 : ℚ) - (a : ℚ) / m = ((m : ℚ) - a) / m := by
    field_simp
  rw [hsub, div_pow]
  have hexp2 : (m : ℚ) ^ n = (m : ℚ) ^ (k - 1) * ((m : ℚ) ^ (n - k) * m) := by
    rw [← pow_succ, ← pow_add]
    congr 1
    omega
  rw [hexp2]
  have hpow1 : ((m : ℚ) ^ (k - 1)) ≠ 0 := pow_ne_zero _ hne
  have hpow2 : ((m : ℚ) ^ (n - k)) ≠ 0 := pow_ne_zero _ hne
  field_simp
  ring

/-! ## Other helper lemmas -/

theorem restartLoopEvents_eq (p : ℚ) :
    ∀ (ds : List ℚ) (r : ℚ),
      restartLoopEvents p r ds = (restartLoop p r ds).map
        (fun k =>
          (List.replicate k [TrainEvent.modelForward,
            TrainEvent.backward]).flatten) := by
  intro ds
  induction ds with
  | nil =>
    intro r
    by_cases h : r < p <;> simp [restartLoopEvents, restartLoop, h]
  | cons d ds ih =>
    intro r
    by_cases h : r < p
    · cases hrl : restartLoop p d ds with
      | none => simp [restartLoopEvents, restartLoop, h, ih d, hrl]
      | some k =>
        simp [restartLoopEvents, restartLoop, h, ih d, hrl, List.replicate_succ]
    · simp [restartLoopEvents, restartLoop, h]

theorem count_flatten_replicate (k : ℕ) (l : List TrainEvent) (e : TrainEvent) :
    ((List.replicate k l).flatten.count e) = k * l.count e := by
  induction k with
  | zero => simp
  | succ k ih => simp [List.replicate_succ, ih, Nat.succ_mul, Nat.add_comm]

theorem runRounds_last (f : ℕ → RoundOut) (p : ℚ) :
    ∀ (ds : List ℚ) (r : ℚ) (idx : ℕ) (cur : Option RoundOut) (k : ℕ),
      restartLoop p r ds = some k →
      runRounds f p r idx cur ds =
        some (if k = 0 then cur else some (f (idx + k - 1))) := by
  intro ds
  induction ds with
  | nil =>
    intro r idx cur k h
    by_cases hr : r < p
    · simp [restartLoop, hr] at h
    · simp only [restartLoop, if_neg hr] at h
      injection h with h
      subst h
      simp [runRounds, hr]
  | cons d ds ih =>
    intro r idx cur k h
    by_cases hr : r < p
    · simp only [restartLoop, if_pos hr] at h
      cases hk : restartLoop p d ds with
      | none => rw [hk] at h; simp at h
      | some m =>
        rw [hk] at h
        simp only [Option.map_some'] at h
        injection h with h
        subst h
        have hrec := ih d (idx + 1) (some (f idx)) m hk
        simp only [runRounds, if_pos hr, hrec]
        by_cases hm : m = 0
        · subst hm
          have he : idx + (0 + 1) - 1 = idx := by omega
          simp [he]
        · have h1 : ¬ (m + 1 = 0) := by omega
          have he : idx + 1 + m - 1 = idx + (m + 1) - 1 := by omega
          simp [hm, h1, he]
    · simp only [restartLoop, if_neg hr] at h
      injection h with h
      subst h
      simp [runRounds, hr]

/-! ## Claim C8: window graph neighbor sets -/

/-- C8: for every frame count N and every pair of indices i, j, the window
graph assigns j as a neighbor of i exactly when `j ≠ i ∧ |i - j| ≤ 2 ∧ j < N`;
the validation graph at src/train.py:192-194 is built by the identical rule;
and the concrete N = 7 examples hold: frame 0 has neighbors `[1, 2]` and frame
3 has neighbors `[1, 2, 4, 5]`. -/
theorem window_graph_neighbor_spec :
    (∀ N i j : ℕ, j ∈ windowNeighbors N i ↔
        (j ≠ i ∧ ((i : ℤ) - (j : ℤ)).natAbs ≤ 2 ∧ j < N)) ∧
    (∀ N i : ℕ, valGraphNeighbors N i = windowNeighbors N i) ∧
    windowNeighbors 7 0 = [1, 2] ∧ windowNeighbors 7 3 = [1, 2, 4, 5] := by
  refine ⟨?_, fun N i => rfl, by decide, by decide⟩
  intro N i j
  simp only [windowNeighbors, List.mem_filter, List.mem_range,
    decide_eq_true_eq]
  constructor
  · rintro ⟨hj, hij, habs⟩
    exact ⟨fun h => hij h.symm, habs, hj⟩
  · rintro ⟨hji, habs, hj⟩
    exact ⟨hj, fun h => hji h.symm, habs⟩

/-! ## Claim C2: round count of the restart loop -/

/-- C2: entered with comparator 0 (src/train.py:137), a positive restart
probability executes at least one refinement round; when the loop terminates
on the supplied draw stream, the number of rounds equals one plus the number
of consecutive leading draws strictly below the restart probability; a
non-positive restart probability executes zero rounds; and over the uniform
finite draw space of granularity m, the round count follows the geometric law
with success probability 1 - a/m. -/
theorem round_count_spec (p : ℚ) (draws : List ℚ)
    (hp : 0 < p) (hterm : ∃ d ∈ draws, p ≤ d) :
    roundCount p draws =
        some (1 + (draws.takeWhile (fun d => decide (d < p))).length) ∧
    (∀ k, roundCount p draws = some k → 1 ≤ k) ∧
    (∀ q : ℚ, q ≤ 0 → roundCount q draws = some 0) ∧
    (∀ n m a k : ℕ, 0 < a → a < m → 1 ≤ k → k ≤ n →
      ((geomSet n m a k).card : ℚ) / (m : ℚ) ^ n =
        ((a : ℚ) / m) ^ (k - 1) * (1 - (a : ℚ) / m)) := by
  have hmain := restartLoop_count draws 0 hp hterm
  refine ⟨hmain, ?_, ?_, ?_⟩
  · intro k hk
    rw [roundCount, hmain] at hk
    injection hk with hk
    omega
  · intro q hq
    exact restartLoop_exit (not_lt.mpr hq) draws
  · intro n m a k ha ham hk hkn
    exact geomSet_prob n m a k ha ham hk hkn

/-- Witness for round_count_spec: restart probability 1/2 with draw stream
`[1/4, 3/4]`, and the geometric law at n = 2, m = 2, a = 1, k = 1. -/
theorem round_count_spec_witness :
    (roundCount (1/2 : ℚ) [1/4, 3/4] =
      some (1 + (([(1/4 : ℚ), 3/4]).takeWhile
        (fun d => decide (d < (1/2 : ℚ)))).length)) ∧
    ((geomSet 2 2 1 1).card : ℚ) / (2 : ℚ) ^ 2 =
      ((1 : ℚ) / 2) ^ 0 * (1 - (1 : ℚ) / 2) := by
  have h := round_count_spec (1/2) [1/4, 3/4] (by norm_num)
    ⟨3/4, by simp, by norm_num⟩
  refine ⟨h.1, ?_⟩
  have h4 := h.2.2.2 2 2 1 1 (by norm_num) (by norm_num) (by norm_num)
    (by norm_num)
  simpa using h4

/-! ## Claim C7: gradient discipline of one outer step -/

/-- C7: in every outer training step that executes k rounds, the event trace
is gradient-clearing once at the very start, then a loop body containing only
model invocations and k gradient computations (no clearing, no optimizer or
scheduler activity between rounds), then exactly one gradient clip, one
optimizer step and one scheduler step, in that order, after all rounds. -/
theorem outer_step_grad_discipline (p : ℚ) (draws : List ℚ) (k : ℕ)
    (h : roundCount p draws = some k) :
    ∃ body : List TrainEvent,
      outerStepEvents p draws = some (TrainEvent.zeroGrad :: (body ++
        [TrainEvent.clipGradNorm, TrainEvent.optimizerStep,
         TrainEvent.schedulerStep])) ∧
      (∀ e ∈ body, e = TrainEvent.modelForward ∨ e = TrainEvent.backward) ∧
      body.count TrainEvent.backward = k ∧
      body.count TrainEvent.zeroGrad = 0 ∧
      body.count TrainEvent.clipGradNorm = 0 ∧
      body.count TrainEvent.optimizerStep = 0 ∧
      body.count TrainEvent.schedulerStep = 0 := by
  rw [roundCount] at h
  refine ⟨(List.replicate k [TrainEvent.modelForward,
      TrainEvent.backward]).flatten, ?_, ?_, ?_, ?_, ?_, ?_, ?_⟩
  · rw [outerStepEvents, restartLoopEvents_eq p draws 0, h]
    rfl
  · intro e he
    rcases List.mem_flatten.mp he with ⟨m, hm, hem⟩
    rcases List.eq_of_mem_replicate hm with rfl
    simp only [List.mem_cons, List.not_mem_nil, or_false] at hem
    rcases hem with rfl | rfl
    · exact Or.inl rfl
    · exact Or.inr rfl
  · simp [count_flatten_replicate]
  · simp [count_flatten_replicate]
  · simp [count_flatten_replicate]
  · simp [count_flatten_replicate]
  · simp [count_flatten_replicate]

/-- Witness for outer_step_grad_discipline: restart probability 1/2, draw
stream `[3/4]`, one round. -/
theorem outer_step_grad_discipline_witness :
    ∃ body : List TrainEvent,
      outerStepEvents (1/2 : ℚ) [3/4] = some (TrainEvent.zeroGrad :: (body ++
        [TrainEvent.clipGradNorm, TrainEvent.optimizerStep,
         TrainEvent.schedulerStep])) ∧
      body.count TrainEvent.backward = 1 := by
  obtain ⟨b, h1, _, h3, _, _, _, _⟩ :=
    outer_step_grad_discipline (1/2 : ℚ) [3/4] 1
      (by norm_num [roundCount, restartLoop])
  exact ⟨b, h1, h3⟩

/-! ## Claim C3: rank-independent restart seeding -/

/-- C3: the restart-stream seed is rank-independent, so for any deterministic
seed-to-stream generator two processes with the same configuration obtain the
same draw stream, hence the same round count and the same per-step event trace
(in particular the same number of gradient-computation backward events, the
collective-triggering operations). -/
theorem restart_seed_rank_independent (gen : ℕ → List ℚ) (g1 g2 : ℕ) (p : ℚ) :
    restartRngSeed g1 = restartRngSeed g2 ∧
    roundCount p (gen (restartRngSeed g1)) =
      roundCount p (gen (restartRngSeed g2)) ∧
    outerStepEvents p (gen (restartRngSeed g1)) =
      outerStepEvents p (gen (restartRngSeed g2)) :=
  ⟨rfl, rfl, rfl⟩

/-! ## Claim C9: per-step initialization -/

/-- C9: at the start of every outer step, frame 0 receives the ground-truth
pose of frame 0 and every other frame receives the ground-truth pose of frame
1; the inverse-depth estimate is the constant one sampled exactly at the
positions congruent to 3 mod 8 along each spatial axis (one position per
8-pixel block, offset 3 into the block); and the intrinsics passed to the
model are the batch intrinsics scaled by 1/8. -/
theorem outer_step_initialization :
    (∀ (α : Type) (Ps : ℕ → α), initPoses Ps 0 = Ps 0) ∧
    (∀ (α : Type) (Ps : ℕ → α) (i : ℕ), initPoses Ps (i + 1) = Ps 1) ∧
    (∀ H x : ℕ, x ∈ sliceIdx H ↔ (x < H ∧ x % 8 = 3)) ∧
    (∀ H b x : ℕ, x ∈ sliceIdx H → x / 8 = b → x = 8 * b + 3) ∧
    (∀ r c : ℕ, disp0 r c = 1) ∧
    (∀ K : ℚ, intrinsics0 K = K * (1 / 8)) := by
  have hmem : ∀ H x : ℕ, x ∈ sliceIdx H ↔ (x < H ∧ x % 8 = 3) := by
    intro H x
    simp only [sliceIdx, List.mem_filter, List.mem_range, decide_eq_true_eq]
    omega
  refine ⟨fun α Ps => rfl, fun α Ps i => by simp [initPoses], hmem, ?_,
    fun r c => rfl, fun K => by rw [intrinsics0]; ring⟩
  intro H b x hx hdiv
  have := (hmem H x).mp hx
  omega

/-- Witness for outer_step_initialization: position 11 on an axis of length
20 is sampled and is the unique sample of block 1. -/
theorem outer_step_initialization_witness :
    (11 ∈ sliceIdx 20) ∧ 11 / 8 = 1 ∧ 11 = 8 * 1 + 3 :=
  ⟨by decide, by decide,
    outer_step_initialization.2.2.2.1 20 1 11 (by decide) (by decide)⟩

/-! ## Claim C10: emitted per-step scalars come from the final round -/

/-- C10: when an outer step executes k ≥ 1 rounds, the round-output variables
held after the loop exits are exactly the outputs of the final (k-th) round,
and the emitted per-step scalars (the three loss terms, the combined weighted
loss, and the rotation/translation/flow errors) are computed from those
final-round outputs only; outputs of earlier rounds are overwritten and never
emitted. -/
theorem emitted_scalars_from_last_round (f : ℕ → RoundOut)
    (w1 w2 w3 p : ℚ) (draws : List ℚ) (k : ℕ)
    (hk : roundCount p draws = some k) (h1 : 1 ≤ k) :
    runRounds f p 0 0 none draws = some (some (f (k - 1))) ∧
    (runRounds f p 0 0 none draws).map (Option.map (emittedLog w1 w2 w3)) =
      some (some (emittedLog w1 w2 w3 (f (k - 1)))) := by
  have h := runRounds_last f p draws 0 0 none k hk
  have hne : ¬ (k = 0) := by omega
  rw [roundCount] at hk
  rw [h]
  simp [hne]

/-- Witness for emitted_scalars_from_last_round: probability 1/2, draw stream
[1/4, 3/4], two rounds, round outputs distinguished by the geodesic loss
component. -/
theorem emitted_scalars_from_last_round_witness :
    runRounds (fun t => ⟨(t : ℚ), 0, 0, 0, 0, 0⟩) (1/2 : ℚ) 0 0 none
      [1/4, 3/4] = some (some ⟨(1 : ℚ), 0, 0, 0, 0, 0⟩) := by
  have h := (emitted_scalars_from_last_round
    (fun t => ⟨(t : ℚ), 0, 0, 0, 0, 0⟩) 10 0 0 (1/2) [1/4, 3/4] 2
    (by norm_num [roundCount, restartLoop]) (by norm_num)).1
  simpa using h

/-! ## Claim C1 (code bug): validation metric reduction -/

/-- C1 (code bug): with world size 2 and per-process validation error streams
[1, 2, 3] and [4, 5, 6] (three local batches each), the logging process
reports 6 / (2 * 2) = 3/2 — its own local float sum divided by (final batch
index times world size) — while the claim specifies (6 + 15) / (3 * 2) = 7/2;
the SUM all-reduce does compute 21, but its result is never read. -/
theorem val_reduction_divergence :
    reportedValMetric 2 [1, 2, 3] = 3 / 2 ∧
    claimedValMetric 2 3 [[1, 2, 3], [4, 5, 6]] = 7 / 2 ∧
    allReduceSum [localValSum [1, 2, 3], localValSum [4, 5, 6]] = 21 ∧
    reportedValMetric 2 [1, 2, 3] ≠
      claimedValMetric 2 3 [[1, 2, 3], [4, 5, 6]] := by
  have ht : ∀ a b c : ℚ, ([a, b, c]).take 500 = [a, b, c] := fun a b c =>
    List.take_of_length_le (by norm_num)
  refine ⟨?_, ?_, ?_, ?_⟩ <;>
    norm_num [reportedValMetric, claimedValMetric, allReduceSum, localValSum,
      finalVBatch, ht]

/-! ## Claim C4 (code bug): configuration validation of restart_prob -/

/-- C4 (code bug): a configuration with restart_prob = -1 is accepted by the
configuration code (no validation exists), and a training step under it
executes zero refinement rounds, the post-loop round-output slot staying
undefined (the Python variables loss, geo_metrics, ... are never assigned). -/
theorem nonpositive_restart_prob_accepted :
    validateConfig ⟨-1, 4, 15, 250000⟩ = some ⟨-1, 4, 15, 250000⟩ ∧
    roundCount (-1) [1/4, 3/4] = some 0 ∧
    runRounds (fun t => ⟨(t : ℚ), 0, 0, 0, 0, 0⟩) (-1) 0 0 none [1/4, 3/4] =
      some none ∧
    defaultRestartProb > 0 := by
  refine ⟨rfl, ?_, ?_, by norm_num [defaultRestartProb]⟩
  · exact restartLoop_exit (by norm_num) _
  · simp [runRounds]

/-! ## Claim C5 (code bug): graphs used during a validation batch -/

/-- C5 (code bug): with the leftover training graph [(0, [3])] (a sparse
heuristic graph from src/train.py:124) still bound to the variable graph, the
validation batch passes the window graph to the model and to the flow loss
but passes the leftover training graph — a different graph — to the geodesic
loss. -/
theorem val_geodesic_graph_divergence :
    (valBatchGraphArgs _ [(0, [3])] (valGraph 7)).modelGraph = valGraph 7 ∧
    (valBatchGraphArgs _ [(0, [3])] (valGraph 7)).floLossGraph = valGraph 7 ∧
    (valBatchGraphArgs _ [(0, [3])] (valGraph 7)).geoLossGraph = [(0, [3])] ∧
    [(0, [3])] ≠ valGraph 7 := by
  refine ⟨rfl, rfl, rfl, ?_⟩
  decide

/-! ## Claim C6 (code bug): data feed partitioning and per-epoch shuffling -/

/-- C6 (code bug): for every permutation primitive, dataset size, rank and
pair of epochs, the training visit order is identical across the two epochs —
set_epoch is never called, so the shuffle generator is seeded with 0 + 0 in
every epoch — refuting the claim that two successive training epochs visit
the samples in different orders; the validation order is the fixed range(n),
as claimed. -/
theorem train_epoch_order_constant (randperm : ℕ → List ℕ)
    (n world rank e1 e2 : ℕ) :
    trainEpochOrder randperm n world rank e1 =
      trainEpochOrder randperm n world rank e2 ∧
    samplerIndices randperm n (trainSamplerAtEpoch e1) = randperm 0 ∧
    samplerIndices randperm n (valSamplerAtEpoch e1) = List.range n :=
  ⟨rfl, rfl, rfl⟩

end DroidTrain
